import Mathlib

/-!
# Verification of the icon-library client pipeline

Shallow embedding of the core data/render pipeline of the icon-gallery web
client (`src/App.tsx`, `src/IconModal.tsx`):

* the SVG attribute transformer of `IconModal` (regex-based rewriting of
  `fill`, `width`, `height` attributes),
* the style index builder, the search+style filter, and the row chunking of
  `App`,
* the collection-load effect of `App` as a small state machine.

Strings are modelled as `List Char`.  The JavaScript regular expressions
`/fill="[^"]*"/g`, `/width="[^"]*"/` and `/height="[^"]*"/` are modelled by an
explicit left-to-right scan (`matchAttr` below): at a position, the pattern
`name="[^"]*"` matches iff the text starts with `name="` and a closing quote
occurs later, the value being everything up to the first such quote.  This is
exactly the semantics of those regexes, since `[^"]*` can never consume a
quote.  `String.prototype.includes` and single-replacement of a plain string
pattern (`s.replace('<svg', …)`) are modelled by `containsSub` and
`replaceSubFirst`.
-/

namespace IconLib

/-- `HeadPart p s` : the list `p` is an initial segment of `s`. -/
def HeadPart (p s : List Char) : Prop := ∃ t, s = p ++ t

/-- `IsSub p s` : the list `p` occurs contiguously somewhere inside `s`
(the semantics of JavaScript `String.prototype.includes`). -/
def IsSub (p s : List Char) : Prop := ∃ a b, s = a ++ p ++ b

/-- The exact text of a double-quoted attribute `name="v"`. -/
def attrText (name v : List Char) : List Char :=
  name ++ '=' :: '"' :: (v ++ ['"'])

/-- Scan to the first double quote: returns the quote-free part before it and
the remainder after it.  Models how `[^"]*"` consumes input. -/
def splitAtQuote : List Char → Option (List Char × List Char)
  | [] => none
  | c :: cs =>
    if c = '"' then some ([], cs)
    else
      match splitAtQuote cs with
      | some (v, r) => some (c :: v, r)
      | none => none

/-- One attempted match of the regex `name="[^"]*"` at the head of `s`:
on success returns the value and the text after the closing quote. -/
def matchAttr (name s : List Char) : Option (List Char × List Char) :=
  if (name ++ ['=', '"']).isPrefixOf s then
    splitAtQuote (s.drop (name.length + 2))
  else none

/-- `String.prototype.includes` on character lists. -/
def containsSub (p s : List Char) : Bool :=
  match s with
  | [] => p.isPrefixOf []
  | _ :: cs => p.isPrefixOf s || containsSub p cs

/-- `RegExp.prototype.test` for the pattern `name="[^"]*"` (used by the
source for `WIDTH_REGEX.test(s)` / `HEIGHT_REGEX.test(s)`). -/
def containsAttrB (name s : List Char) : Bool :=
  match s with
  | [] => false
  | _ :: cs => (matchAttr name s).isSome || containsAttrB name cs

/-- `s.replace(/name="[^"]*"/, repl)` : replace the first match only
(the non-global `WIDTH_REGEX` / `HEIGHT_REGEX` replacement). -/
def replaceAttrFirst (name repl s : List Char) : List Char :=
  match s with
  | [] => []
  | c :: cs =>
    match matchAttr name (c :: cs) with
    | some (_, rest) => repl ++ rest
    | none => c :: replaceAttrFirst name repl cs

/-- Fuel-indexed worker for the global replacement `s.replace(/name="[^"]*"/g, repl)`:
after a match the scan resumes after the closing quote.  The fuel only makes the
recursion structural; `replaceAttrAll` below supplies enough fuel. -/
def replaceAttrAllF (name repl : List Char) : Nat → List Char → List Char
  | _, [] => []
  | 0, s => s
  | fuel + 1, c :: cs =>
    match matchAttr name (c :: cs) with
    | some (_, rest) => repl ++ replaceAttrAllF name repl fuel rest
    | none => c :: replaceAttrAllF name repl fuel cs

/-- `s.replace(/name="[^"]*"/g, repl)` — the global `FILL_REGEX` replacement. -/
def replaceAttrAll (name repl s : List Char) : List Char :=
  replaceAttrAllF name repl s.length s

/-- Fuel-indexed worker listing the values of all (non-overlapping, leftmost)
matches of `name="[^"]*"` in scan order. -/
def attrValuesF (name : List Char) : Nat → List Char → List (List Char)
  | _, [] => []
  | 0, _ => []
  | fuel + 1, c :: cs =>
    match matchAttr name (c :: cs) with
    | some (v, rest) => v :: attrValuesF name fuel rest
    | none => attrValuesF name fuel cs

/-- The values of all matches of `name="[^"]*"` in `s`, in scan order. -/
def attrValues (name s : List Char) : List (List Char) :=
  attrValuesF name s.length s

/-- `s.replace(pat, repl)` for a plain (non-regex, non-empty) string pattern:
replace the first occurrence only; `s` unchanged when `pat` does not occur. -/
def replaceSubFirst (p repl s : List Char) : List Char :=
  match s with
  | [] => []
  | c :: cs =>
    if p.isPrefixOf (c :: cs) then repl ++ (c :: cs).drop p.length
    else c :: replaceSubFirst p repl cs

/-! ## Basic facts about the scanning primitives -/

theorem headPart_iff {p s : List Char} : p.isPrefixOf s = true ↔ HeadPart p s := by
  induction p generalizing s with
  | nil => simp [List.isPrefixOf, HeadPart]
  | cons a as ih =>
    cases s with
    | nil => simp [List.isPrefixOf, HeadPart]
    | cons b bs =>
      simp only [List.isPrefixOf, Bool.and_eq_true, beq_iff_eq, ih, HeadPart]
      constructor
      · rintro ⟨rfl, t, rfl⟩; exact ⟨t, rfl⟩
      · rintro ⟨t, h⟩
        simp only [List.cons_append, List.cons.injEq] at h
        exact ⟨h.1.symm, t, h.2⟩

theorem headPart_isSub {p s : List Char} (h : HeadPart p s) : IsSub p s := by
  obtain ⟨t, rfl⟩ := h; exact ⟨[], t, rfl⟩

theorem isSub_cons {p s : List Char} {c : Char} (h : IsSub p s) : IsSub p (c :: s) := by
  obtain ⟨a, b, rfl⟩ := h; exact ⟨c :: a, b, rfl⟩

theorem containsSub_iff {p s : List Char} : containsSub p s = true ↔ IsSub p s := by
  induction s with
  | nil =>
    simp only [containsSub, headPart_iff, HeadPart, IsSub]
    constructor
    · rintro ⟨t, h⟩; exact ⟨[], t, h⟩
    · rintro ⟨a, b, h⟩
      rcases List.append_eq_nil.mp (List.append_eq_nil.mp h.symm).1 with ⟨rfl, rfl⟩
      exact ⟨b, h⟩
  | cons c cs ih =>
    simp only [containsSub, Bool.or_eq_true, headPart_iff, ih]
    constructor
    · rintro (h | h)
      · exact headPart_isSub h
      · exact isSub_cons h
    · rintro ⟨a, b, h⟩
      cases a with
      | nil => exact Or.inl ⟨b, by simpa using h⟩
      | cons x xs =>
        simp only [List.cons_append, List.cons.injEq] at h
        exact Or.inr ⟨xs, b, h.2⟩

theorem isSub_trans {p q s : List Char} (h1 : IsSub p q) (h2 : IsSub q s) : IsSub p s := by
  obtain ⟨a, b, rfl⟩ := h1
  obtain ⟨c, d, rfl⟩ := h2
  exact ⟨c ++ a, b ++ d, by simp⟩

theorem isSub_of_append_left {p a b : List Char} (h : IsSub p a) : IsSub p (a ++ b) := by
  obtain ⟨x, y, rfl⟩ := h; exact ⟨x, y ++ b, by simp⟩

theorem isSub_of_append_right {p a b : List Char} (h : IsSub p b) : IsSub p (a ++ b) := by
  obtain ⟨x, y, rfl⟩ := h; exact ⟨a ++ x, y, by simp⟩

theorem containsSub_false_of_isSub {p s : List Char}
    (h : containsSub p s = false) (hin : IsSub p s) : False := by
  rw [← Bool.not_eq_true, containsSub_iff] at h
  exact h hin

theorem splitAtQuote_sound {s v r : List Char} (h : splitAtQuote s = some (v, r)) :
    s = v ++ '"' :: r ∧ '"' ∉ v := by
  induction s generalizing v with
  | nil => simp [splitAtQuote] at h
  | cons c cs ih =>
    by_cases hc : c = '"'
    · subst hc
      simp only [splitAtQuote, if_pos rfl, Option.some.injEq, Prod.mk.injEq] at h
      obtain ⟨rfl, rfl⟩ := h
      exact ⟨rfl, by simp⟩
    · simp only [splitAtQuote, if_neg hc] at h
      cases hsp : splitAtQuote cs with
      | none => rw [hsp] at h; cases h
      | some p =>
        obtain ⟨v0, r0⟩ := p
        rw [hsp] at h
        simp only [Option.some.injEq, Prod.mk.injEq] at h
        obtain ⟨rfl, rfl⟩ := h
        obtain ⟨h1, h2⟩ := ih hsp
        refine ⟨by simp [h1], ?_⟩
        intro hm
        rcases List.mem_cons.mp hm with h | h
        · exact hc h.symm
        · exact h2 h

theorem splitAtQuote_complete {v r : List Char} (hv : '"' ∉ v) :
    splitAtQuote (v ++ '"' :: r) = some (v, r) := by
  induction v with
  | nil => simp [splitAtQuote]
  | cons x xs ih =>
    have hx : x ≠ '"' := fun h => hv (h ▸ List.mem_cons_self x xs)
    have hxs : ('"' : Char) ∉ xs := fun h => hv (List.mem_cons_of_mem _ h)
    simp only [List.cons_append, splitAtQuote, if_neg hx, List.append_eq, ih hxs]

theorem splitAtQuote_eq_none {s : List Char} :
    splitAtQuote s = none ↔ '"' ∉ s := by
  induction s with
  | nil => simp [splitAtQuote]
  | cons c cs ih =>
    by_cases hc : c = '"'
    · subst hc; simp [splitAtQuote]
    · simp only [splitAtQuote, if_neg hc, List.mem_cons]
      cases hsp : splitAtQuote cs with
      | none =>
        constructor
        · intro _
          rintro (h | h)
          · exact hc h.symm
          · exact (ih.mp hsp) h
        · intro _; rfl
      | some p =>
        have hmem : ('"' : Char) ∈ cs := by
          by_contra hq
          rw [ih.mpr hq] at hsp
          cases hsp
        constructor
        · intro h; cases h
        · intro h; exact absurd (Or.inr hmem) h

theorem attrText_append {name v r : List Char} :
    attrText name v ++ r = (name ++ ['=', '"']) ++ (v ++ '"' :: r) := by
  simp [attrText]

theorem matchAttr_some_iff {name s v r : List Char} :
    matchAttr name s = some (v, r) ↔ '"' ∉ v ∧ s = attrText name v ++ r := by
  unfold matchAttr
  by_cases hp : (name ++ ['=', '"']).isPrefixOf s = true
  · rw [if_pos hp]
    obtain ⟨t, rfl⟩ := headPart_iff.mp hp
    have hd : ((name ++ ['=', '"']) ++ t).drop (name.length + 2) = t := by
      have : (name ++ ['=', '"']).length = name.length + 2 := by simp
      rw [← this, List.drop_left]
    rw [hd]
    constructor
    · intro h
      obtain ⟨h1, h2⟩ := splitAtQuote_sound h
      exact ⟨h2, by rw [attrText_append, h1]⟩
    · rintro ⟨hv, heq⟩
      rw [attrText_append] at heq
      have ht : t = v ++ '"' :: r := List.append_cancel_left heq
      rw [ht]
      exact splitAtQuote_complete hv
  · rw [if_neg hp]
    constructor
    · intro h; cases h
    · rintro ⟨hv, heq⟩
      rw [attrText_append] at heq
      exact absurd (headPart_iff.mpr ⟨v ++ '"' :: r, heq⟩) hp

theorem matchAttr_attrText {name v t : List Char} (hv : '"' ∉ v) :
    matchAttr name (attrText name v ++ t) = some (v, t) :=
  matchAttr_some_iff.mpr ⟨hv, rfl⟩

theorem matchAttr_rest_length {name s v r : List Char}
    (h : matchAttr name s = some (v, r)) : r.length < s.length := by
  obtain ⟨-, rfl⟩ := matchAttr_some_iff.mp h
  simp [attrText]
  omega

theorem matchAttr_eq_none_iff {name s : List Char} :
    matchAttr name s = none ↔
      ¬ HeadPart (name ++ ['=', '"']) s ∨ '"' ∉ s.drop (name.length + 2) := by
  unfold matchAttr
  by_cases hp : (name ++ ['=', '"']).isPrefixOf s = true
  · rw [if_pos hp, splitAtQuote_eq_none]
    simp [headPart_iff.mp hp]
  · rw [if_neg hp]
    constructor
    · intro _
      exact Or.inl (fun h => hp (headPart_iff.mpr h))
    · intro _; rfl

theorem attrText_count_quote {name v : List Char} (hn : '"' ∉ name) (hv : '"' ∉ v) :
    (attrText name v).count '"' = 2 := by
  simp [attrText, List.count_append, List.count_cons,
    List.count_eq_zero.mpr hn, List.count_eq_zero.mpr hv]

theorem matchAttr_two_quotes {name s v r : List Char} (hn : '"' ∉ name)
    (h : matchAttr name s = some (v, r)) : 2 ≤ s.count '"' := by
  obtain ⟨hv, rfl⟩ := matchAttr_some_iff.mp h
  rw [List.count_append, attrText_count_quote hn hv]
  omega

/-! ## Unfolding equations for the fuel-based scans -/

theorem replaceAttrAllF_congr (name repl : List Char) :
    ∀ f1 : Nat, ∀ f2 : Nat, ∀ s : List Char, s.length ≤ f1 → s.length ≤ f2 →
      replaceAttrAllF name repl f1 s = replaceAttrAllF name repl f2 s := by
  intro f1
  induction f1 with
  | zero =>
    intro f2 s h1 _
    have : s = [] := List.length_eq_zero.mp (Nat.le_zero.mp h1)
    subst this
    cases f2 <;> rfl
  | succ n ih =>
    intro f2 s h1 h2
    cases s with
    | nil => cases f2 <;> rfl
    | cons c cs =>
      cases f2 with
      | zero => simp at h2
      | succ m =>
        cases hm : matchAttr name (c :: cs) with
        | some p =>
          obtain ⟨v, rest⟩ := p
          have hr := matchAttr_rest_length hm
          simp only [List.length_cons] at h1 h2 hr
          simp only [replaceAttrAllF, hm]
          rw [ih m rest (by omega) (by omega)]
        | none =>
          simp only [List.length_cons] at h1 h2
          simp only [replaceAttrAllF, hm]
          rw [ih m cs (by omega) (by omega)]

theorem replaceAttrAll_nil (name repl : List Char) :
    replaceAttrAll name repl [] = [] := rfl

theorem replaceAttrAll_cons (name repl : List Char) (c : Char) (cs : List Char) :
    replaceAttrAll name repl (c :: cs) =
      match matchAttr name (c :: cs) with
      | some (_, rest) => repl ++ replaceAttrAll name repl rest
      | none => c :: replaceAttrAll name repl cs := by
  cases hm : matchAttr name (c :: cs) with
  | none =>
    simp only [replaceAttrAll, List.length_cons, replaceAttrAllF, hm]
  | some p =>
    obtain ⟨v, rest⟩ := p
    have hr := matchAttr_rest_length hm
    simp only [replaceAttrAll, List.length_cons, replaceAttrAllF, hm]
    rw [replaceAttrAllF_congr name repl cs.length rest.length rest
      (by simpa [Nat.lt_succ_iff] using hr) le_rfl]

theorem attrValuesF_congr (name : List Char) :
    ∀ f1 : Nat, ∀ f2 : Nat, ∀ s : List Char, s.length ≤ f1 → s.length ≤ f2 →
      attrValuesF name f1 s = attrValuesF name f2 s := by
  intro f1
  induction f1 with
  | zero =>
    intro f2 s h1 _
    have : s = [] := List.length_eq_zero.mp (Nat.le_zero.mp h1)
    subst this
    cases f2 <;> rfl
  | succ n ih =>
    intro f2 s h1 h2
    cases s with
    | nil => cases f2 <;> rfl
    | cons c cs =>
      cases f2 with
      | zero => simp at h2
      | succ m =>
        cases hm : matchAttr name (c :: cs) with
        | some p =>
          obtain ⟨v, rest⟩ := p
          have hr := matchAttr_rest_length hm
          simp only [List.length_cons] at h1 h2 hr
          simp only [attrValuesF, hm]
          rw [ih m rest (by omega) (by omega)]
        | none =>
          simp only [List.length_cons] at h1 h2
          simp only [attrValuesF, hm]
          rw [ih m cs (by omega) (by omega)]

theorem attrValues_nil (name : List Char) : attrValues name [] = [] := rfl

theorem attrValues_cons (name : List Char) (c : Char) (cs : List Char) :
    attrValues name (c :: cs) =
      match matchAttr name (c :: cs) with
      | some (v, rest) => v :: attrValues name rest
      | none => attrValues name cs := by
  cases hm : matchAttr name (c :: cs) with
  | none =>
    simp only [attrValues, List.length_cons, attrValuesF, hm]
  | some p =>
    obtain ⟨v, rest⟩ := p
    have hr := matchAttr_rest_length hm
    simp only [attrValues, List.length_cons, attrValuesF, hm]
    rw [attrValuesF_congr name cs.length rest.length rest
      (by simpa [Nat.lt_succ_iff] using hr) le_rfl]

/-! ## Behaviour of the replacement scans -/

theorem containsAttrB_false_cons {name : List Char} {c : Char} {cs : List Char}
    (h : containsAttrB name (c :: cs) = false) :
    matchAttr name (c :: cs) = none ∧ containsAttrB name cs = false := by
  simp only [containsAttrB, Bool.or_eq_false_iff] at h
  exact ⟨Option.not_isSome_iff_eq_none.mp (by simp [h.1]), h.2⟩

theorem replaceAttrFirst_no_match {name repl s : List Char}
    (h : containsAttrB name s = false) : replaceAttrFirst name repl s = s := by
  induction s with
  | nil => rfl
  | cons c cs ih =>
    obtain ⟨h1, h2⟩ := containsAttrB_false_cons h
    simp only [replaceAttrFirst, h1, ih h2]

theorem replaceAttrAll_no_match {name repl s : List Char}
    (h : containsAttrB name s = false) : replaceAttrAll name repl s = s := by
  induction s with
  | nil => rfl
  | cons c cs ih =>
    obtain ⟨h1, h2⟩ := containsAttrB_false_cons h
    rw [replaceAttrAll_cons, h1, ih h2]

theorem attrValues_no_match {name s : List Char}
    (h : containsAttrB name s = false) : attrValues name s = [] := by
  induction s with
  | nil => rfl
  | cons c cs ih =>
    obtain ⟨h1, h2⟩ := containsAttrB_false_cons h
    rw [attrValues_cons, h1, ih h2]

theorem containsAttrB_iff {name s : List Char} :
    containsAttrB name s = true ↔
      ∃ a v b, '"' ∉ v ∧ s = a ++ attrText name v ++ b := by
  induction s with
  | nil =>
    simp only [containsAttrB]
    constructor
    · intro h; cases h
    · rintro ⟨a, v, b, -, h⟩
      have := congrArg List.length h
      simp only [attrText, List.length_nil, List.length_append, List.length_cons] at this
      omega
  | cons c cs ih =>
    simp only [containsAttrB, Bool.or_eq_true, Option.isSome_iff_exists, ih]
    constructor
    · rintro (⟨p, hp⟩ | ⟨a, v, b, hv, rfl⟩)
      · obtain ⟨v, r⟩ := p
        obtain ⟨hv, heq⟩ := matchAttr_some_iff.mp hp
        exact ⟨[], v, r, hv, by simpa using heq⟩
      · exact ⟨c :: a, v, b, hv, rfl⟩
    · rintro ⟨a, v, b, hv, heq⟩
      cases a with
      | nil =>
        exact Or.inl ⟨(v, b), matchAttr_some_iff.mpr ⟨hv, by simpa using heq⟩⟩
      | cons z zs =>
        simp only [List.cons_append, List.cons.injEq] at heq
        exact Or.inr ⟨zs, v, b, hv, heq.2⟩

theorem isSub_eq_of_containsAttrB {name s : List Char}
    (h : containsAttrB name s = true) : IsSub (name ++ ['=']) s := by
  obtain ⟨a, v, b, -, rfl⟩ := containsAttrB_iff.mp h
  refine ⟨a, '"' :: (v ++ ['"']) ++ b, ?_⟩
  simp [attrText]

theorem containsAttrB_false_of_not_isSub {name s : List Char}
    (h : containsSub (name ++ ['=']) s = false) : containsAttrB name s = false := by
  by_contra hb
  rw [Bool.not_eq_false] at hb
  exact containsSub_false_of_isSub h (isSub_eq_of_containsAttrB hb)

theorem isSub_attrText_replaceAttrAll {name repl s : List Char}
    (h : containsAttrB name s = true) : IsSub repl (replaceAttrAll name repl s) := by
  induction s with
  | nil => cases h
  | cons c cs ih =>
    rw [replaceAttrAll_cons]
    cases hm : matchAttr name (c :: cs) with
    | some p =>
      obtain ⟨v, rest⟩ := p
      exact headPart_isSub ⟨replaceAttrAll name repl rest, rfl⟩
    | none =>
      simp only [containsAttrB, hm, Option.isSome_none, Bool.false_or] at h
      exact isSub_cons (ih h)

theorem attrText_ne_nil {name v : List Char} : attrText name v ≠ [] := by
  simp [attrText]

theorem replaceAttrAll_attrText_append {name repl v t : List Char} (hv : '"' ∉ v) :
    replaceAttrAll name repl (attrText name v ++ t) =
      repl ++ replaceAttrAll name repl t := by
  cases hat : attrText name v ++ t with
  | nil => exact absurd (List.append_eq_nil.mp hat).1 attrText_ne_nil
  | cons y ys =>
    rw [replaceAttrAll_cons, ← hat, matchAttr_attrText hv]

theorem attrValues_attrText_append {name v t : List Char} (hv : '"' ∉ v) :
    attrValues name (attrText name v ++ t) = v :: attrValues name t := by
  cases hat : attrText name v ++ t with
  | nil => exact absurd (List.append_eq_nil.mp hat).1 attrText_ne_nil
  | cons y ys =>
    rw [attrValues_cons, ← hat, matchAttr_attrText hv]

theorem replaceAttrAll_take_agree {name c : List Char} (hc : '"' ∉ c) :
    ∀ s : List Char, ∀ n : Nat, n ≤ name.length + 2 →
      (replaceAttrAll name (attrText name c) s).take n = s.take n := by
  intro s
  induction s with
  | nil => intro n _; rfl
  | cons x xs ih =>
    intro n hn
    cases hm : matchAttr name (x :: xs) with
    | some p =>
      obtain ⟨v, rest⟩ := p
      obtain ⟨hv, heq⟩ := matchAttr_some_iff.mp hm
      rw [heq, replaceAttrAll_attrText_append hv]
      have hA : ∀ u w : List Char, (attrText name u ++ w).take n =
          ((name ++ ['=', '"']).take n : List Char) := by
        intro u w
        rw [attrText_append]
        exact List.take_append_of_le_length (by simp only [List.length_append, List.length_cons, List.length_nil]; omega)
      rw [hA c (replaceAttrAll name (attrText name c) rest), hA v rest]
    | none =>
      rw [replaceAttrAll_cons, hm]
      cases n with
      | zero => rfl
      | succ m =>
        simp only [List.take_succ_cons]
        rw [ih m (by omega)]

theorem replaceAttrAll_small_quotes {name repl s : List Char} (hn : '"' ∉ name)
    (h : s.count '"' ≤ 1) : replaceAttrAll name repl s = s := by
  induction s with
  | nil => rfl
  | cons x xs ih =>
    rw [replaceAttrAll_cons]
    cases hm : matchAttr name (x :: xs) with
    | some p =>
      obtain ⟨v, rest⟩ := p
      have := matchAttr_two_quotes hn hm
      omega
    | none =>
      have hxs : xs.count '"' ≤ 1 :=
        le_trans ((List.sublist_cons_self x xs).count_le '"') h
      rw [ih hxs]

theorem headPart_take {p s : List Char} (h : HeadPart p s) : s.take p.length = p := by
  obtain ⟨t, rfl⟩ := h
  exact List.take_left p t

theorem headPart_of_take {p s : List Char} (h : s.take p.length = p) : HeadPart p s := by
  refine ⟨s.drop p.length, ?_⟩
  conv_lhs => rw [← List.take_append_drop p.length s, h]

theorem matchAttr_none_stable {name c : List Char} (hn : '"' ∉ name) (hc : '"' ∉ c)
    {x : Char} {xs : List Char} (h : matchAttr name (x :: xs) = none) :
    matchAttr name (x :: replaceAttrAll name (attrText name c) xs) = none := by
  have hcons : replaceAttrAll name (attrText name c) (x :: xs) =
      x :: replaceAttrAll name (attrText name c) xs := by
    rw [replaceAttrAll_cons, h]
  by_cases hp : HeadPart (name ++ ['=', '"']) (x :: xs)
  · -- the head was `name="` but no closing quote follows anywhere:
    -- the tail holds at most one quote, so the global replace keeps it intact.
    obtain ⟨t, ht⟩ := hp
    have hq : ('"' : Char) ∉ (x :: xs).drop (name.length + 2) := by
      rcases matchAttr_eq_none_iff.mp h with h1 | h1
      · exact absurd ⟨t, ht⟩ h1
      · exact h1
    have hdrop : (x :: xs).drop (name.length + 2) = t := by
      have hlen : (name ++ ['=', '"']).length = name.length + 2 := by simp
      rw [ht, ← hlen, List.drop_left]
    have hcount : (x :: xs).count '"' ≤ 1 := by
      rw [ht, List.count_append]
      have h1 : (name ++ ['=', '"']).count '"' = 1 := by
        simp [List.count_append, List.count_cons, List.count_eq_zero.mpr hn]
      have h2 : t.count '"' = 0 := List.count_eq_zero.mpr (hdrop ▸ hq)
      omega
    have hxs : xs.count '"' ≤ 1 :=
      le_trans ((List.sublist_cons_self x xs).count_le '"') hcount
    rw [replaceAttrAll_small_quotes hn hxs]
    exact h
  · -- the head pattern `name="` is simply absent, and the replacement does not
    -- change the first `name.length + 2` characters.
    apply matchAttr_eq_none_iff.mpr
    left
    intro hp2
    apply hp
    have htk := replaceAttrAll_take_agree hc (x :: xs) (name.length + 2) le_rfl
    rw [hcons] at htk
    apply headPart_of_take
    have hlen : (name ++ ['=', '"']).length = name.length + 2 := by simp
    rw [hlen, ← htk]
    exact hlen ▸ headPart_take hp2

theorem attrValues_replaceAttrAll_aux {name c : List Char} (hn : '"' ∉ name)
    (hc : '"' ∉ c) :
    ∀ fuel : Nat, ∀ s : List Char, s.length ≤ fuel →
      attrValues name (replaceAttrAll name (attrText name c) s) =
        List.replicate (attrValues name s).length c := by
  intro fuel
  induction fuel with
  | zero =>
    intro s hs
    have : s = [] := List.length_eq_zero.mp (Nat.le_zero.mp hs)
    subst this
    rfl
  | succ n ih =>
    intro s hs
    cases s with
    | nil => rfl
    | cons x xs =>
      cases hm : matchAttr name (x :: xs) with
      | some p =>
        obtain ⟨v, rest⟩ := p
        obtain ⟨hv, heq⟩ := matchAttr_some_iff.mp hm
        have hr : rest.length ≤ n := by
          have := matchAttr_rest_length hm
          simp only [List.length_cons] at this hs
          omega
        rw [heq, replaceAttrAll_attrText_append hv, attrValues_attrText_append hc,
          attrValues_attrText_append hv, ih rest hr]
        simp [List.replicate_succ]
      | none =>
        have hxs : xs.length ≤ n := by
          simp only [List.length_cons] at hs
          omega
        have hstable := matchAttr_none_stable hn hc hm
        simp only [replaceAttrAll_cons, hm, attrValues_cons, hstable]
        exact ih xs hxs

/-- The global fill replacement turns the value of every match into `c`
(and creates or destroys no match). -/
theorem attrValues_replaceAttrAll {name c s : List Char} (hn : '"' ∉ name)
    (hc : '"' ∉ c) :
    attrValues name (replaceAttrAll name (attrText name c) s) =
      List.replicate (attrValues name s).length c :=
  attrValues_replaceAttrAll_aux hn hc s.length s le_rfl

theorem replaceAttrAll_idem_aux {name c : List Char} (hn : '"' ∉ name) (hc : '"' ∉ c) :
    ∀ fuel : Nat, ∀ s : List Char, s.length ≤ fuel →
      replaceAttrAll name (attrText name c)
          (replaceAttrAll name (attrText name c) s) =
        replaceAttrAll name (attrText name c) s := by
  intro fuel
  induction fuel with
  | zero =>
    intro s hs
    have : s = [] := List.length_eq_zero.mp (Nat.le_zero.mp hs)
    subst this
    rfl
  | succ n ih =>
    intro s hs
    cases s with
    | nil => rfl
    | cons x xs =>
      cases hm : matchAttr name (x :: xs) with
      | some p =>
        obtain ⟨v, rest⟩ := p
        obtain ⟨hv, heq⟩ := matchAttr_some_iff.mp hm
        have hr : rest.length ≤ n := by
          have := matchAttr_rest_length hm
          simp only [List.length_cons] at this hs
          omega
        rw [heq, replaceAttrAll_attrText_append hv,
          replaceAttrAll_attrText_append hc, ih rest hr]
      | none =>
        have hxs : xs.length ≤ n := by
          simp only [List.length_cons] at hs
          omega
        have hstable := matchAttr_none_stable hn hc hm
        simp only [replaceAttrAll_cons, hm, hstable]
        rw [ih xs hxs]

/-- The global fill replacement is idempotent. -/
theorem replaceAttrAll_idem {name c s : List Char} (hn : '"' ∉ name) (hc : '"' ∉ c) :
    replaceAttrAll name (attrText name c)
        (replaceAttrAll name (attrText name c) s) =
      replaceAttrAll name (attrText name c) s :=
  replaceAttrAll_idem_aux hn hc s.length s le_rfl

theorem headPart_append_cases {p u w : List Char} (h : HeadPart p (u ++ w)) :
    HeadPart p u ∨ HeadPart u p := by
  obtain ⟨t, ht⟩ := h
  rcases List.append_eq_append_iff.mp ht with ⟨a, ha, -⟩ | ⟨a, ha, -⟩
  · exact Or.inr ⟨a, ha⟩
  · exact Or.inl ⟨a, ha⟩

theorem mem_of_getLast_opt : ∀ {l : List Char} {a : Char}, l.getLast? = some a → a ∈ l := by
  intro l
  induction l with
  | nil => intro a h; cases h
  | cons x xs ih =>
    intro a h
    cases xs with
    | nil =>
      simp only [List.getLast?_singleton, Option.some.injEq] at h
      simp [h]
    | cons y ys =>
      rw [List.getLast?_cons_cons] at h
      exact List.mem_cons_of_mem _ (ih h)

theorem containsSub_false_tail {p : List Char} {c : Char} {cs : List Char}
    (h : containsSub p (c :: cs) = false) : containsSub p cs = false := by
  simp only [containsSub, Bool.or_eq_false_iff] at h
  exact h.2

theorem headPart_mem {p s : List Char} (h : HeadPart p s) {a : Char} (ha : a ∈ p) :
    a ∈ s := by
  obtain ⟨t, rfl⟩ := h
  exact List.mem_append_left t ha

/-- Scanning `a ++ name="c" ++ b`: when `a` carries no occurrence of `name=`,
ends with a blank, and `b` carries no occurrence of `name=` either, the global
replacement leaves the text unchanged (the single match is already `name="c"`). -/
theorem replaceAttrAll_pad {name c : List Char} (hc : '"' ∉ c) (hsp : ' ' ∉ name) :
    ∀ a b : List Char, containsSub (name ++ ['=']) a = false →
      (a = [] ∨ a.getLast? = some ' ') →
      containsSub (name ++ ['=']) b = false →
      replaceAttrAll name (attrText name c) (a ++ attrText name c ++ b) =
        a ++ attrText name c ++ b := by
  intro a
  induction a with
  | nil =>
    intro b _ _ hb
    simp only [List.nil_append]
    rw [replaceAttrAll_attrText_append hc,
      replaceAttrAll_no_match (containsAttrB_false_of_not_isSub hb)]
  | cons x a' ih =>
    intro b ha hl hb
    have hlast : (x :: a').getLast? = some ' ' := by
      rcases hl with h | h
      · cases h
      · exact h
    have hm : matchAttr name (x :: (a' ++ attrText name c ++ b)) = none := by
      cases hmm : matchAttr name (x :: (a' ++ attrText name c ++ b)) with
      | none => rfl
      | some p =>
        obtain ⟨v, r⟩ := p
        obtain ⟨hv, heq⟩ := matchAttr_some_iff.mp hmm
        exfalso
        have hhp : HeadPart (name ++ ['=']) ((x :: a') ++ (attrText name c ++ b)) := by
          refine ⟨'"' :: (v ++ ['"']) ++ r, ?_⟩
          simp only [List.cons_append, List.append_assoc] at heq ⊢
          rw [heq]
          simp [attrText]
        rcases headPart_append_cases hhp with h1 | h1
        · exact containsSub_false_of_isSub ha (headPart_isSub h1)
        · have hsp2 : (' ' : Char) ∈ name ++ ['='] :=
            headPart_mem h1 (mem_of_getLast_opt hlast)
          rcases List.mem_append.mp hsp2 with h2 | h2
          · exact hsp h2
          · simp at h2
    have ha' : containsSub (name ++ ['=']) a' = false := containsSub_false_tail ha
    have hl' : a' = [] ∨ a'.getLast? = some ' ' := by
      cases a' with
      | nil => exact Or.inl rfl
      | cons z zs =>
        right
        rw [List.getLast?_cons_cons] at hlast
        exact hlast
    have := ih b ha' hl' hb
    calc replaceAttrAll name (attrText name c) ((x :: a') ++ attrText name c ++ b)
        = replaceAttrAll name (attrText name c)
            (x :: (a' ++ attrText name c ++ b)) := by simp
      _ = x :: replaceAttrAll name (attrText name c)
            (a' ++ attrText name c ++ b) := by rw [replaceAttrAll_cons, hm]
      _ = x :: (a' ++ attrText name c ++ b) := by rw [this]
      _ = (x :: a') ++ attrText name c ++ b := by simp

theorem replaceSubFirst_no_occur {p repl s : List Char}
    (h : containsSub p s = false) : replaceSubFirst p repl s = s := by
  induction s with
  | nil => rfl
  | cons c cs ih =>
    simp only [containsSub, Bool.or_eq_false_iff] at h
    simp only [replaceSubFirst, h.1, Bool.false_eq_true, if_false, ih h.2]

theorem replaceSubFirst_decomp {p repl s : List Char} (hp : p ≠ [])
    (h : containsSub p s = true) :
    ∃ a b, s = a ++ p ++ b ∧ replaceSubFirst p repl s = a ++ repl ++ b ∧
      ∀ a2 b2 : List Char, s = a2 ++ p ++ b2 → a.length ≤ a2.length := by
  induction s with
  | nil =>
    exfalso
    simp only [containsSub, headPart_iff] at h
    obtain ⟨t, ht⟩ := h
    exact hp (List.append_eq_nil.mp ht.symm).1
  | cons c cs ih =>
    by_cases hpre : p.isPrefixOf (c :: cs) = true
    · obtain ⟨t, ht⟩ := headPart_iff.mp hpre
      refine ⟨[], t, by simpa using ht, ?_, fun a2 b2 _ => Nat.zero_le _⟩
      simp only [replaceSubFirst, hpre, if_true, List.nil_append]
      rw [ht]
      have : (p ++ t).drop p.length = t := List.drop_left p t
      rw [this]
    · have hcs : containsSub p cs = true := by
        simp only [containsSub, hpre, Bool.false_or] at h
        exact h
      obtain ⟨a, b, h1, h2, hmin⟩ := ih hcs
      refine ⟨c :: a, b, by simp [h1], ?_, ?_⟩
      · simp only [replaceSubFirst, hpre, Bool.false_eq_true, if_false, h2,
          List.cons_append]
      · intro a2 b2 heq
        cases a2 with
        | nil =>
          exfalso
          exact hpre (headPart_iff.mpr ⟨b2, by simpa using heq⟩)
        | cons z zs =>
          simp only [List.cons_append, List.cons.injEq] at heq
          simpa using Nat.succ_le_succ (hmin zs b2 heq.2)

theorem replaceAttrFirst_decomp {name repl s : List Char}
    (h : containsAttrB name s = true) :
    ∃ a v b, '"' ∉ v ∧ s = a ++ attrText name v ++ b ∧
      replaceAttrFirst name repl s = a ++ repl ++ b ∧
      ∀ a2 v2 b2 : List Char, '"' ∉ v2 → s = a2 ++ attrText name v2 ++ b2 →
        a.length ≤ a2.length := by
  induction s with
  | nil => cases h
  | cons c cs ih =>
    cases hm : matchAttr name (c :: cs) with
    | some p =>
      obtain ⟨v, rest⟩ := p
      obtain ⟨hv, heq⟩ := matchAttr_some_iff.mp hm
      refine ⟨[], v, rest, hv, by simpa using heq, ?_, fun _ _ _ _ _ => Nat.zero_le _⟩
      simp only [replaceAttrFirst, hm, List.nil_append]
    | none =>
      have hcs : containsAttrB name cs = true := by
        simp only [containsAttrB, hm, Option.isSome_none, Bool.false_or] at h
        exact h
      obtain ⟨a, v, b, hv, h1, h2, hmin⟩ := ih hcs
      refine ⟨c :: a, v, b, hv, by simp [h1], ?_, ?_⟩
      · simp only [replaceAttrFirst, hm, h2, List.cons_append]
      · intro a2 v2 b2 hv2 heq
        cases a2 with
        | nil =>
          exfalso
          have : matchAttr name (c :: cs) = some (v2, b2) :=
            matchAttr_some_iff.mpr ⟨hv2, by simpa using heq⟩
          rw [hm] at this
          cases this
        | cons z zs =>
          simp only [List.cons_append, List.cons.injEq] at heq
          simpa using Nat.succ_le_succ (hmin zs v2 b2 hv2 heq.2)

/-! ## The SVG attribute transformer (`src/IconModal.tsx`, lines 14–49)

```
const FILL_REGEX = /fill="[^"]*"/g;
const WIDTH_REGEX = /width="[^"]*"/;
const HEIGHT_REGEX = /height="[^"]*"/;
...
let s = icon.content;
if (s.includes('fill=')) { s = s.replace(FILL_REGEX, `fill="${color}"`); }
else { s = s.replace('<svg', `<svg fill="${color}"`); }
const hasWidth = WIDTH_REGEX.test(s);
const hasHeight = HEIGHT_REGEX.test(s);
if (hasWidth) { s = s.replace(WIDTH_REGEX, `width="${size}"`); }
if (hasHeight) { s = s.replace(HEIGHT_REGEX, `height="${size}"`); }
if (!hasWidth && !hasHeight) { s = s.replace('<svg', `<svg width="${size}" height="${size}"`); }
return s;
```
-/

/-- The attribute name `fill`. -/
def fillName : List Char := "fill".data

/-- The attribute name `width`. -/
def widthName : List Char := "width".data

/-- The attribute name `height`. -/
def heightName : List Char := "height".data

/-- The substring `fill=` tested by `s.includes('fill=')`. -/
def fillEq : List Char := "fill=".data

/-- The plain pattern `<svg` of the two injection replacements. -/
def svgTag : List Char := "<svg".data

/-- The decimal rendering of the numeric `size` state, as interpolated by
the template literals of the source. -/
def sizeChars (size : Nat) : List Char := (Nat.repr size).data

/-- Lines 27–32 of `IconModal.tsx`: the fill branch.  Note that the branch is
selected by `s.includes('fill=')` — a plain substring test — while the
replacement itself uses the regex `fill="[^"]*"`. -/
def fillStage (color content : List Char) : List Char :=
  if containsSub fillEq content then
    replaceAttrAll fillName (attrText fillName color) content
  else
    replaceSubFirst svgTag (svgTag ++ ' ' :: attrText fillName color) content

/-- Lines 34–46 of `IconModal.tsx`: the dimension branch.  The two presence
flags are computed once, each present attribute's first match is replaced, and
only when both are absent are `width` and `height` injected at the first
occurrence of `<svg`. -/
def dimStage (size : Nat) (s : List Char) : List Char :=
  let hasW := containsAttrB widthName s
  let hasH := containsAttrB heightName s
  let s2 := if hasW then
      replaceAttrFirst widthName (attrText widthName (sizeChars size)) s
    else s
  let s3 := if hasH then
      replaceAttrFirst heightName (attrText heightName (sizeChars size)) s2
    else s2
  if !hasW && !hasH then
    replaceSubFirst svgTag
      (svgTag ++ ' ' :: attrText widthName (sizeChars size) ++
        ' ' :: attrText heightName (sizeChars size)) s3
  else s3

/-- The whole `svg` `useMemo` of `IconModal.tsx` (lines 24–49): fill branch,
then dimension branch. -/
def transformSvg (color : List Char) (size : Nat) (content : List Char) : List Char :=
  dimStage size (fillStage color content)

/-! ## The icon record model and the `App` pipeline (`src/App.tsx`) -/

/-- The `Icon` record (`src/App.tsx`, lines 172–179). -/
structure Icon where
  name : String
  category : String
  style : String
  path : String
  content : String
  collection : String
deriving DecidableEq, Repr

/-- `const ICONS_PER_ROW = 9` (line 182). -/
def ICONS_PER_ROW : Nat := 9

/-- `{ limit: 500 }` — the cap passed to `fuse.search` (line 315). -/
def SEARCH_LIMIT : Nat := 500

/-- Fuel-indexed worker for the `rows` loop; the fuel only makes the
recursion structural. -/
def buildRowsF : Nat → List Icon → List (List Icon)
  | _, [] => []
  | 0, _ => []
  | fuel + 1, l => l.take ICONS_PER_ROW :: buildRowsF fuel (l.drop ICONS_PER_ROW)

/-- The `rows` `useMemo` (lines 333–339): successive slices
`filtered.slice(i, i + ICONS_PER_ROW)` for `i = 0, 9, 18, …`. -/
def buildRows (l : List Icon) : List (List Icon) :=
  buildRowsF l.length l

/-- `Map.prototype.get` on an association list (entries in insertion order). -/
def mapGet (m : List (String × List Icon)) (k : String) : Option (List Icon) :=
  match m with
  | [] => none
  | (k2, v) :: rest => if k2 = k then some v else mapGet rest k

/-- `Map.prototype.set`: overwrite the entry in place if the key exists,
otherwise append a new entry (JavaScript `Map` keeps insertion order). -/
def mapSet (m : List (String × List Icon)) (k : String) (v : List Icon) :
    List (String × List Icon) :=
  match m with
  | [] => [(k, v)]
  | (k2, v2) :: rest =>
    if k2 = k then (k, v) :: rest else (k2, v2) :: mapSet rest k v

/-- The grouping loop of the `styles/styleIndex` `useMemo` (lines 295–300):
`const arr = index.get(icon.style) || []; arr.push(icon); index.set(...)`. -/
def buildGrouping : List Icon → List (String × List Icon) → List (String × List Icon)
  | [], m => m
  | i :: rest, m =>
    buildGrouping rest (mapSet m i.style ((mapGet m i.style).getD [] ++ [i]))

/-- `Set.prototype.add`: append iff not already present (insertion order). -/
def setAdd (s : List String) (x : String) : List String :=
  if x ∈ s then s else s ++ [x]

/-- The `styleSet` accumulation of the same loop (line 296). -/
def styleKeys : List Icon → List String → List String
  | [], acc => acc
  | i :: rest, acc => styleKeys rest (setAdd acc i.style)

/-- Lexicographic comparison of character lists by code point — the default
`Array.prototype.sort()` string comparator (UTF-16 code-unit order, which
agrees with code-point order on the basic plane). -/
def charListLe : List Char → List Char → Bool
  | [], _ => true
  | _ :: _, [] => false
  | a :: as, b :: bs =>
    if a.toNat < b.toNat then true
    else if b.toNat < a.toNat then false
    else charListLe as bs

/-- String comparison used to model `.sort()` on style names. -/
def strLe (a b : String) : Bool := charListLe a.data b.data

/-- `strLe` as a decidable relation. -/
def strRel (a b : String) : Prop := strLe a b = true

instance : DecidableRel strRel := fun a b =>
  inferInstanceAs (Decidable (strLe a b = true))

/-- `Array.from(styleSet).sort()` (line 303): the sorted distinct style
values.  Sorting is modelled by insertion sort, which produces the same list
as any comparison sort on a duplicate-free input. -/
def sortStrings (l : List String) : List String := List.insertionSort strRel l

/-- `styles` of the `useMemo` (line 303): `['all', ...Array.from(styleSet).sort()]`. -/
def stylesOf (icons : List Icon) : List String :=
  "all" :: sortStrings (styleKeys icons [])

/-- `styleIndex` of the `useMemo` (lines 291–306). -/
def styleIndexOf (icons : List Icon) : List (String × List Icon) :=
  buildGrouping icons []

/-- The `filtered` `useMemo` (lines 309–330).  The fuzzy search is the
external Fuse.js collaborator: it is taken as a parameter
`fuse : Option (String → List Icon)` (the `fuseRef.current` value, `none`
when no index has been built), already composed with `{ limit: 500 }` and
`.map(r => r.item)`. -/
def filteredView (fuse : Option (String → List Icon)) (icons : List Icon)
    (grouping : List (String × List Icon)) (q sty : String) : List Icon :=
  if q ≠ "" ∧ fuse.isSome then
    let r := match fuse with
      | some f => f q
      | none => []
    if sty ≠ "all" then r.filter (fun i => i.style == sty) else r
  else if sty ≠ "all" then (mapGet grouping sty).getD []
  else icons

/-! ## The collection-load effect (`src/App.tsx`, lines 240–288)

The relevant component state, the synchronous part of the load effect that
runs on a collection selection, and the `.then` continuation of the fetch.
The source continuation (lines 280–287) runs unconditionally when the
response arrives:

```
.then((data: Icon[]) => {
  const fuse = new Fuse(data, FUSE_OPTIONS);
  cache.set(collection, { icons: data, fuse });
  fuseRef.current = fuse;
  setIcons(data);
  setLoading(false);
});
```
-/

/-- The component state touched by the collection-load effect. -/
structure AppState where
  collection : String
  icons : List Icon
  loading : Bool
  cache : List (String × List Icon)
deriving DecidableEq, Repr

/-- Initial state: `useState<Icon[]>([])`, `useState('')`, `useState(true)`,
empty module-level cache. -/
def initialState : AppState :=
  { collection := "", icons := [], loading := true, cache := [] }

/-- The user selects collection `c`: `setCollection(c)` followed by the
effect body (lines 266–277): a cache hit applies the cached entry at once;
a miss sets `loading` and starts a fetch for `c`. -/
def selectCollection (st : AppState) (c : String) : AppState :=
  match mapGet st.cache c with
  | some entry => { st with collection := c, icons := entry, loading := false }
  | none => { st with collection := c, loading := true }

/-- The fetch started for collection `c` resolves with `data` (lines 280–287):
the continuation caches and applies the data unconditionally — it never
compares `c` with the currently selected collection. -/
def resolveFetch (st : AppState) (c : String) (data : List Icon) : AppState :=
  { st with cache := mapSet st.cache c data, icons := data, loading := false }

/-! ## Facts about the row chunking -/

theorem buildRowsF_congr :
    ∀ f1 f2 : Nat, ∀ l : List Icon, l.length ≤ f1 → l.length ≤ f2 →
      buildRowsF f1 l = buildRowsF f2 l := by
  intro f1
  induction f1 with
  | zero =>
    intro f2 l h1 _
    have : l = [] := List.length_eq_zero.mp (Nat.le_zero.mp h1)
    subst this
    cases f2 <;> rfl
  | succ n ih =>
    intro f2 l h1 h2
    cases l with
    | nil => cases f2 <;> rfl
    | cons c cs =>
      cases f2 with
      | zero => simp at h2
      | succ m =>
        simp only [buildRowsF]
        simp only [List.length_cons] at h1 h2
        have hd : ((c :: cs).drop ICONS_PER_ROW).length ≤ n := by
          simp only [List.length_drop, List.length_cons, ICONS_PER_ROW]
          omega
        have hd2 : ((c :: cs).drop ICONS_PER_ROW).length ≤ m := by
          simp only [List.length_drop, List.length_cons, ICONS_PER_ROW]
          omega
        rw [ih m _ hd hd2]

theorem buildRows_nil : buildRows [] = [] := rfl

theorem buildRows_cons_eq (l : List Icon) (h : l ≠ []) :
    buildRows l = l.take ICONS_PER_ROW :: buildRows (l.drop ICONS_PER_ROW) := by
  cases l with
  | nil => exact absurd rfl h
  | cons c cs =>
    show buildRowsF (cs.length + 1) (c :: cs) = _
    simp only [buildRowsF]
    rw [buildRowsF_congr cs.length ((c :: cs).drop ICONS_PER_ROW).length _ _ le_rfl]
    · rfl
    · simp only [List.length_drop, List.length_cons, ICONS_PER_ROW]
      omega

theorem buildRows_length_aux :
    ∀ fuel : Nat, ∀ l : List Icon, l.length ≤ fuel →
      (buildRows l).length = (l.length + (ICONS_PER_ROW - 1)) / ICONS_PER_ROW := by
  intro fuel
  induction fuel with
  | zero =>
    intro l h
    have : l = [] := List.length_eq_zero.mp (Nat.le_zero.mp h)
    subst this
    rfl
  | succ n ih =>
    intro l h
    cases l with
    | nil => rfl
    | cons c cs =>
      have h9 : ICONS_PER_ROW = 9 := rfl
      rw [buildRows_cons_eq _ (by simp), List.length_cons,
        ih ((c :: cs).drop ICONS_PER_ROW) (by
          simp only [List.length_drop, List.length_cons] at *
          omega)]
      simp only [List.length_drop, List.length_cons, h9]
      omega

theorem buildRows_flatten_aux :
    ∀ fuel : Nat, ∀ l : List Icon, l.length ≤ fuel → (buildRows l).flatten = l := by
  intro fuel
  induction fuel with
  | zero =>
    intro l h
    have : l = [] := List.length_eq_zero.mp (Nat.le_zero.mp h)
    subst this
    rfl
  | succ n ih =>
    intro l h
    cases l with
    | nil => rfl
    | cons c cs =>
      have h9 : ICONS_PER_ROW = 9 := rfl
      rw [buildRows_cons_eq _ (by simp)]
      rw [List.flatten_cons,
        ih ((c :: cs).drop ICONS_PER_ROW) (by
          simp only [List.length_drop, List.length_cons] at *
          omega),
        List.take_append_drop]

theorem buildRows_full_aux :
    ∀ fuel : Nat, ∀ l : List Icon, l.length ≤ fuel →
      ∀ i : Nat, ∀ h2 : i + 1 < (buildRows l).length,
        ((buildRows l).get ⟨i, Nat.lt_of_succ_lt h2⟩).length = ICONS_PER_ROW := by
  intro fuel
  induction fuel with
  | zero =>
    intro l h i h2
    have : l = [] := List.length_eq_zero.mp (Nat.le_zero.mp h)
    subst this
    simp [buildRows_nil] at h2
  | succ n ih =>
    intro l h i h2
    cases l with
    | nil => simp [buildRows_nil] at h2
    | cons c cs =>
      have h9 : ICONS_PER_ROW = 9 := rfl
      have heq := buildRows_cons_eq (c :: cs) (by simp)
      have hd : ((c :: cs).drop ICONS_PER_ROW).length ≤ n := by
        simp only [List.length_drop, List.length_cons] at *
        omega
      have h2' : i + 1 <
          (List.take ICONS_PER_ROW (c :: cs) ::
            buildRows ((c :: cs).drop ICONS_PER_ROW)).length := by
        rw [← heq]; exact h2
      rcases i with - | j
      · have hget : (buildRows (c :: cs)).get ⟨0, Nat.lt_of_succ_lt h2⟩ =
            List.take ICONS_PER_ROW (c :: cs) := by
          rw [List.get_of_eq heq]
          rfl
        rw [hget]
        have hne : buildRows ((c :: cs).drop ICONS_PER_ROW) ≠ [] := by
          intro he
          rw [he] at h2'
          simp at h2'
        have hdne : (c :: cs).drop ICONS_PER_ROW ≠ [] := fun he =>
          hne (by rw [he, buildRows_nil])
        have hlong : ICONS_PER_ROW < (c :: cs).length := by
          by_contra hcon
          exact hdne (List.drop_eq_nil_iff.mpr (by omega))
        rw [List.length_take]
        omega
      · have hj : j + 1 < (buildRows ((c :: cs).drop ICONS_PER_ROW)).length := by
          simp only [List.length_cons] at h2'
          omega
        have hget : (buildRows (c :: cs)).get ⟨j + 1, Nat.lt_of_succ_lt h2⟩ =
            (buildRows ((c :: cs).drop ICONS_PER_ROW)).get
              ⟨j, Nat.lt_of_succ_lt hj⟩ := by
          rw [List.get_of_eq heq]
          rfl
        rw [hget]
        exact ih _ hd j hj

/-! ## Facts about the style index -/

theorem mapGet_mapSet (m : List (String × List Icon)) (k k2 : String) (v : List Icon) :
    mapGet (mapSet m k v) k2 = if k = k2 then some v else mapGet m k2 := by
  induction m with
  | nil => simp [mapGet, mapSet]
  | cons e rest ih =>
    obtain ⟨k3, v3⟩ := e
    by_cases h3 : k3 = k
    · subst h3
      by_cases h2 : k3 = k2
      · subst h2
        simp [mapGet, mapSet]
      · simp [mapGet, mapSet, h2]
    · by_cases h2 : k3 = k2
      · subst h2
        have : ¬ k = k3 := fun he => h3 he.symm
        simp [mapGet, mapSet, h3, this]
      · simp [mapGet, mapSet, h3, h2, ih]

theorem buildGrouping_getD :
    ∀ l : List Icon, ∀ m : List (String × List Icon), ∀ k : String,
      (mapGet (buildGrouping l m) k).getD [] =
        (mapGet m k).getD [] ++ l.filter (fun i => i.style == k) := by
  intro l
  induction l with
  | nil => intro m k; simp [buildGrouping]
  | cons i rest ih =>
    intro m k
    simp only [buildGrouping]
    rw [ih]
    rw [mapGet_mapSet]
    by_cases hk : i.style = k
    · simp only [if_pos hk, List.filter_cons, hk, beq_self_eq_true, if_true]
      simp [hk, List.append_assoc]
    · have hne : (i.style == k) = false := beq_eq_false_iff_ne.mpr hk
      simp only [if_neg hk, List.filter_cons, hne]
      simp

theorem styleIndexOf_getD (L : List Icon) (k : String) :
    (mapGet (styleIndexOf L) k).getD [] = L.filter (fun i => i.style == k) := by
  rw [styleIndexOf, buildGrouping_getD]
  simp [mapGet]

theorem setAdd_mem {s : List String} {x y : String} :
    y ∈ setAdd s x ↔ y ∈ s ∨ y = x := by
  by_cases h : x ∈ s
  · simp only [setAdd, if_pos h]
    constructor
    · exact Or.inl
    · rintro (hy | rfl)
      · exact hy
      · exact h
  · simp [setAdd, if_neg h]

theorem setAdd_nodup {s : List String} {x : String} (h : s.Nodup) :
    (setAdd s x).Nodup := by
  by_cases hx : x ∈ s
  · simpa [setAdd, if_pos hx] using h
  · simp only [setAdd, if_neg hx]
    simpa [List.nodup_append] using ⟨h, fun hm => hx hm⟩

theorem styleKeys_mem :
    ∀ l : List Icon, ∀ acc : List String, ∀ x : String,
      x ∈ styleKeys l acc ↔ x ∈ acc ∨ ∃ i, i ∈ l ∧ i.style = x := by
  intro l
  induction l with
  | nil => intro acc x; simp [styleKeys]
  | cons i rest ih =>
    intro acc x
    simp only [styleKeys, ih, setAdd_mem, List.mem_cons]
    constructor
    · rintro ((h | rfl) | ⟨j, hj, rfl⟩)
      · exact Or.inl h
      · exact Or.inr ⟨i, Or.inl rfl, rfl⟩
      · exact Or.inr ⟨j, Or.inr hj, rfl⟩
    · rintro (h | ⟨j, (rfl | hj), rfl⟩)
      · exact Or.inl (Or.inl h)
      · exact Or.inl (Or.inr rfl)
      · exact Or.inr ⟨j, hj, rfl⟩

theorem styleKeys_nodup :
    ∀ l : List Icon, ∀ acc : List String, acc.Nodup → (styleKeys l acc).Nodup := by
  intro l
  induction l with
  | nil => intro acc h; exact h
  | cons i rest ih => intro acc h; exact ih _ (setAdd_nodup h)

theorem charListLe_total : ∀ a b : List Char,
    charListLe a b = true ∨ charListLe b a = true := by
  intro a
  induction a with
  | nil => intro b; exact Or.inl rfl
  | cons x xs ih =>
    intro b
    cases b with
    | nil => exact Or.inr rfl
    | cons y ys =>
      simp only [charListLe]
      rcases Nat.lt_trichotomy x.toNat y.toNat with h | h | h
      · left
        simp [h]
      · have h1 : ¬ x.toNat < y.toNat := by omega
        have h2 : ¬ y.toNat < x.toNat := by omega
        simpa [h1, h2] using ih ys
      · right
        simp [h]

theorem charListLe_trans : ∀ a b c : List Char,
    charListLe a b = true → charListLe b c = true → charListLe a c = true := by
  intro a
  induction a with
  | nil => intro b c _ _; rfl
  | cons x xs ih =>
    intro b c hab hbc
    cases b with
    | nil => simp [charListLe] at hab
    | cons y ys =>
      cases c with
      | nil => simp [charListLe] at hbc
      | cons z zs =>
        simp only [charListLe] at hab hbc ⊢
        rcases Nat.lt_trichotomy x.toNat y.toNat with hxy | hxy | hxy <;>
          rcases Nat.lt_trichotomy y.toNat z.toNat with hyz | hyz | hyz
        all_goals
          first
          | (simp only [if_pos (by omega : x.toNat < z.toNat)])
          | (exfalso
             revert hab hbc
             simp only [if_neg (by omega : ¬ x.toNat < y.toNat),
               if_pos (by omega : y.toNat < x.toNat)] <;> simp)
          | (exfalso
             revert hab hbc
             simp only [if_neg (by omega : ¬ y.toNat < z.toNat),
               if_pos (by omega : z.toNat < y.toNat)] <;> simp)
          | (have h1 : ¬ x.toNat < z.toNat := by omega
             have h2 : ¬ z.toNat < x.toNat := by omega
             simp only [h1, h2, if_neg, if_false]
             simp only [if_neg (by omega : ¬ x.toNat < y.toNat),
               if_neg (by omega : ¬ y.toNat < x.toNat)] at hab
             simp only [if_neg (by omega : ¬ y.toNat < z.toNat),
               if_neg (by omega : ¬ z.toNat < y.toNat)] at hbc
             exact ih ys zs hab hbc)

instance : IsTotal String strRel :=
  ⟨fun a b => charListLe_total a.data b.data⟩

instance : IsTrans String strRel :=
  ⟨fun a b c => charListLe_trans a.data b.data c.data⟩

theorem sortStrings_sorted (l : List String) :
    List.Sorted strRel (sortStrings l) :=
  List.sorted_insertionSort strRel l

theorem sortStrings_perm (l : List String) : (sortStrings l).Perm l :=
  List.perm_insertionSort strRel l

theorem sortStrings_mem {l : List String} {x : String} :
    x ∈ sortStrings l ↔ x ∈ l :=
  (sortStrings_perm l).mem_iff

theorem sortStrings_nodup {l : List String} (h : l.Nodup) :
    (sortStrings l).Nodup :=
  ((sortStrings_perm l).nodup_iff).mpr h

/-! ## Unfolding facts for the filter pipeline -/

theorem filteredView_search (f : String → List Icon) (L : List Icon)
    (G : List (String × List Icon)) (q sty : String) (hq : q ≠ "") :
    filteredView (some f) L G q sty =
      if sty ≠ "all" then (f q).filter (fun i => i.style == sty) else f q := by
  simp [filteredView, hq]

theorem filteredView_empty_query (fuse : Option (String → List Icon))
    (L : List Icon) (G : List (String × List Icon)) (sty : String) :
    filteredView fuse L G "" sty =
      if sty ≠ "all" then (mapGet G sty).getD [] else L := by
  simp [filteredView]

theorem filteredView_no_index (L : List Icon) (G : List (String × List Icon))
    (q sty : String) :
    filteredView none L G q sty =
      if sty ≠ "all" then (mapGet G sty).getD [] else L := by
  simp [filteredView]

/-! ## Concrete icons and markup used in instances -/

/-- A solid-style icon. -/
def iconA : Icon :=
  ⟨"alpha", "shapes", "solid", "p1", "<svg/>", "col"⟩

/-- An outline-style icon. -/
def iconB : Icon :=
  ⟨"beta", "shapes", "outline", "p2", "<svg/>", "col"⟩

/-- Another solid-style icon. -/
def iconC : Icon :=
  ⟨"gamma", "shapes", "solid", "p3", "<svg/>", "col"⟩

/-- An icon whose style field is literally `all`. -/
def iconAll : Icon :=
  ⟨"delta", "shapes", "all", "p4", "<svg/>", "col"⟩

/-- A three-icon demo collection. -/
def demoIcons : List Icon := [iconA, iconB, iconC]

/-! ## C5 — row chunking -/

/-- C5: for every filtered view, the `rows` useMemo produces exactly
`ceil(length / 9)` rows, every row but possibly the last has exactly
`ICONS_PER_ROW` icons, concatenating the rows in order restores the filtered
view, and an empty view yields no rows. -/
theorem C5_row_chunks (l : List Icon) :
    (buildRows l).length = (l.length + (ICONS_PER_ROW - 1)) / ICONS_PER_ROW ∧
    (∀ i : Nat, ∀ h2 : i + 1 < (buildRows l).length,
      ((buildRows l).get ⟨i, Nat.lt_of_succ_lt h2⟩).length = ICONS_PER_ROW) ∧
    (buildRows l).flatten = l ∧
    (l = [] → buildRows l = []) :=
  ⟨buildRows_length_aux l.length l le_rfl,
   fun i h2 => buildRows_full_aux l.length l le_rfl i h2,
   buildRows_flatten_aux l.length l le_rfl,
   fun h => by rw [h]; rfl⟩

/-- C5 witness: a 10-icon view has 2 rows and its first row is full. -/
theorem C5_row_chunks_witness :
    (buildRows (List.replicate 10 iconA)).length = 2 ∧
    ((buildRows (List.replicate 10 iconA)).get ⟨0, by decide⟩).length =
      ICONS_PER_ROW :=
  ⟨by decide,
   (C5_row_chunks (List.replicate 10 iconA)).2.1 0 (by decide)⟩

/-! ## C6 — style index builder -/

/-- C6: `styles` is the synthetic `all` prepended to the sorted
duplicate-free style values of the list, the grouping maps every style to
exactly the icons of the list carrying that style in source order, and the
builder is a pure function of its input. -/
theorem C6_style_index (L : List Icon) :
    stylesOf L = "all" :: sortStrings (styleKeys L []) ∧
    List.Sorted strRel (sortStrings (styleKeys L [])) ∧
    (sortStrings (styleKeys L [])).Nodup ∧
    (∀ s : String, s ∈ sortStrings (styleKeys L []) ↔ ∃ i, i ∈ L ∧ i.style = s) ∧
    (∀ s : String,
      (mapGet (styleIndexOf L) s).getD [] = L.filter (fun i => i.style == s)) ∧
    (∀ L2 : List Icon, L2 = L → stylesOf L2 = stylesOf L ∧
      styleIndexOf L2 = styleIndexOf L) := by
  refine ⟨rfl, sortStrings_sorted _, sortStrings_nodup (styleKeys_nodup L [] List.nodup_nil),
    ?_, fun s => styleIndexOf_getD L s, ?_⟩
  · intro s
    rw [sortStrings_mem, styleKeys_mem]
    simp
  · rintro L2 rfl
    exact ⟨rfl, rfl⟩

/-- C6 witness: on the demo collection the grouping entry for `solid` is the
two solid icons in source order, and the styles list is sorted. -/
theorem C6_style_index_witness :
    (mapGet (styleIndexOf demoIcons) ("solid")).getD [] = [iconA, iconC] ∧
    stylesOf demoIcons = ["all", "outline", "solid"] := by
  constructor
  · rw [(C6_style_index demoIcons).2.2.2.2.1 ("solid")]
    decide
  · decide

/-! ## C4 — search + style filter pipeline -/

/-- C4: the three-way branch of the `filtered` useMemo, for a built index:
non-empty query searches first (the external fuzzy search, called with
`limit = 500`) and then narrows by style when the style is not `all`;
an empty query with a concrete style returns the precomputed grouping entry
(which equals the style filter of the collection); an empty query with style
`all` returns the whole collection unchanged. -/
theorem C4_filter_three_way (f : String → List Icon) (L : List Icon)
    (q sty : String) :
    (q ≠ "" → sty ≠ "all" →
      filteredView (some f) L (styleIndexOf L) q sty =
        (f q).filter (fun i => i.style == sty)) ∧
    (q ≠ "" → sty = "all" →
      filteredView (some f) L (styleIndexOf L) q sty = f q) ∧
    (q ≠ "" → (∀ q2 : String, (f q2).length ≤ SEARCH_LIMIT) →
      (filteredView (some f) L (styleIndexOf L) q sty).length ≤ SEARCH_LIMIT) ∧
    (sty ≠ "all" →
      filteredView (some f) L (styleIndexOf L) "" sty =
        (mapGet (styleIndexOf L) sty).getD [] ∧
      (mapGet (styleIndexOf L) sty).getD [] =
        L.filter (fun i => i.style == sty)) ∧
    filteredView (some f) L (styleIndexOf L) "" "all" = L := by
  refine ⟨?_, ?_, ?_, ?_, ?_⟩
  · intro hq hs
    rw [filteredView_search f L _ q sty hq, if_pos hs]
  · intro hq hs
    rw [filteredView_search f L _ q sty hq, if_neg (by simp [hs])]
  · intro hq hcap
    rw [filteredView_search f L _ q sty hq]
    by_cases hs : sty ≠ "all"
    · rw [if_pos hs]
      exact le_trans (List.length_filter_le _ _) (hcap q)
    · rw [if_neg hs]
      exact hcap q
  · intro hs
    rw [filteredView_empty_query, if_pos hs]
    exact ⟨rfl, styleIndexOf_getD L sty⟩
  · rw [filteredView_empty_query]
    simp

/-- C4 witness: a concrete search function on the demo collection. -/
theorem C4_filter_three_way_witness :
    filteredView (some fun _ => [iconC, iconA]) demoIcons
        (styleIndexOf demoIcons) ("gam") ("solid") = [iconC, iconA] ∧
    filteredView (some fun _ => [iconC, iconA]) demoIcons
        (styleIndexOf demoIcons) "" ("outline") = [iconB] := by
  constructor
  · rw [(C4_filter_three_way (fun _ => [iconC, iconA]) demoIcons ("gam")
      ("solid")).1 (by decide) (by decide)]
    decide
  · rw [((C4_filter_three_way (fun _ => [iconC, iconA]) demoIcons ("gam")
      ("outline")).2.2.2.1 (by decide)).1]
    rw [styleIndexOf_getD]
    decide

/-! ## C7 — the filtered view versus the source collection -/

/-- A fuzzy search that returns the collection's icons in relevance order,
which differs from source order (permitted by the search library's contract:
results are ranked by relevance, not by source position). -/
def fRev : String → List Icon := fun _ => [iconB, iconA]

/-- C7 counterexample: with a relevance ordering that swaps the two icons,
the search-branch filtered view is not a sublist (subsequence) of the
collection, although every returned icon does belong to it. -/
theorem C7_counterexample :
    (∀ i ∈ fRev ("x"), i ∈ [iconA, iconB]) ∧
    filteredView (some fRev) [iconA, iconB] (styleIndexOf [iconA, iconB])
        ("x") ("all") = [iconB, iconA] ∧
    ¬ List.Sublist (filteredView (some fRev) [iconA, iconB]
        (styleIndexOf [iconA, iconB]) ("x") ("all")) [iconA, iconB] := by
  refine ⟨by decide, by decide, by decide⟩

/-- C7 (amended): every icon of the filtered view belongs to the active
collection (for any search function whose results are drawn from the
collection), and for an empty query the filtered view is moreover a
subsequence of the collection; the search branch keeps the search library's
relevance order, so there it is membership only. -/
theorem C7_membership_amended (f : String → List Icon) (L : List Icon)
    (q sty : String) (hf : ∀ q2 : String, ∀ i ∈ f q2, i ∈ L) :
    (∀ i ∈ filteredView (some f) L (styleIndexOf L) q sty, i ∈ L) ∧
    (q = "" → List.Sublist (filteredView (some f) L (styleIndexOf L) q sty) L) := by
  constructor
  · intro i hi
    by_cases hq : q = ""
    · subst hq
      rw [filteredView_empty_query] at hi
      by_cases hs : sty ≠ "all"
      · rw [if_pos hs, styleIndexOf_getD] at hi
        exact (List.mem_filter.mp hi).1
      · rw [if_neg hs] at hi
        exact hi
    · rw [filteredView_search f L _ q sty hq] at hi
      by_cases hs : sty ≠ "all"
      · rw [if_pos hs] at hi
        exact hf q i (List.mem_filter.mp hi).1
      · rw [if_neg hs] at hi
        exact hf q i hi
  · rintro rfl
    rw [filteredView_empty_query]
    by_cases hs : sty ≠ "all"
    · rw [if_pos hs, styleIndexOf_getD]
      exact List.filter_sublist L
    · rw [if_neg hs]

/-- C7 witness: the membership bound and the empty-query subsequence bound at
a concrete in-collection search. -/
theorem C7_membership_amended_witness :
    iconB ∈ ([iconA, iconB] : List Icon) ∧
    List.Sublist (filteredView (some fRev) [iconA, iconB]
      (styleIndexOf [iconA, iconB]) "" ("solid")) [iconA, iconB] :=
  ⟨(C7_membership_amended fRev [iconA, iconB] ("x") ("all")
      (fun q2 i hi => by
        simp only [fRev, List.mem_cons, List.not_mem_nil, or_false] at hi
        rcases hi with rfl | rfl <;> decide)).1 iconB (by decide),
   (C7_membership_amended fRev [iconA, iconB] "" ("solid")
      (fun q2 i hi => by
        simp only [fRev, List.mem_cons, List.not_mem_nil, or_false] at hi
        rcases hi with rfl | rfl <;> decide)).2 rfl⟩

/-! ## C10 — a literal `all` style value -/

/-- C10: if some icon's style field is literally `all`, the styles list
contains `all` twice (the prepended synthetic value and the sorted real one),
and the pipeline's `all` branch never consults the grouping: a non-empty
query returns the unnarrowed search results and an empty query returns the
whole collection. -/
theorem C10_all_style_shadowed (L : List Icon)
    (h : "all" ∈ L.map (fun i => i.style)) :
    List.count ("all") (stylesOf L) = 2 ∧
    (∀ f : String → List Icon, ∀ q : String, q ≠ "" →
      filteredView (some f) L (styleIndexOf L) q ("all") = f q) ∧
    (∀ fuse : Option (String → List Icon),
      filteredView fuse L (styleIndexOf L) "" ("all") = L) := by
  refine ⟨?_, ?_, ?_⟩
  · rw [stylesOf, List.count_cons]
    have hmem : "all" ∈ styleKeys L [] := by
      rw [styleKeys_mem]
      obtain ⟨i, hi, hs⟩ := List.mem_map.mp h
      exact Or.inr ⟨i, hi, hs⟩
    have hone : List.count ("all") (styleKeys L []) = 1 :=
      List.count_eq_one_of_mem (styleKeys_nodup L [] List.nodup_nil) hmem
    rw [(sortStrings_perm (styleKeys L [])).count_eq ("all"), hone]
    simp
  · intro f q hq
    rw [filteredView_search f L _ q ("all") hq]
    simp
  · intro fuse
    cases fuse with
    | none => rw [filteredView_no_index]; simp
    | some f => rw [filteredView_empty_query]; simp

/-- C10 witness: a collection with a literal `all` icon. -/
theorem C10_all_style_shadowed_witness :
    List.count ("all") (stylesOf [iconAll, iconA]) = 2 ∧
    filteredView none [iconAll, iconA] (styleIndexOf [iconAll, iconA]) ""
        ("all") = [iconAll, iconA] :=
  ⟨(C10_all_style_shadowed [iconAll, iconA] (by decide)).1,
   (C10_all_style_shadowed [iconAll, iconA] (by decide)).2.2 none⟩

/-! ## C1 — the collection-load race -/

/-- The interleaving `select a → select b → b's fetch resolves → a's fetch
resolves` of the collection-load effect. -/
def staleTrace : AppState :=
  resolveFetch
    (resolveFetch
      (selectCollection (selectCollection initialState ("a")) ("b"))
      ("b") [iconB])
    ("a") [iconA]

/-- C1: the fetch continuation applies its data unconditionally, so after the
interleaving above the active collection is `b` while the displayed icons are
`a`'s — the stale earlier fetch overwrites the later selection's data,
contradicting the specified staleness guard. -/
theorem C1_stale_fetch_overwrites :
    staleTrace.collection = "b" ∧ staleTrace.icons = [iconA] ∧
    ([iconA] : List Icon) ≠ [iconB] := by
  refine ⟨rfl, rfl, by decide⟩

/-! ## C2 — the fill branch -/

/-- Markup containing the bare text `fill=` but no complete `fill="…"`
attribute, with a root `<svg>` tag. -/
def fillTextMarkup : List Char := "<svg><text>fill=</text></svg>".data

/-- C2 counterexample: `fillTextMarkup` has no `fill="…"` attribute anywhere,
so by the claim the transform should inject `fill="#ff0000"` into the root
tag; but because the branch tests the substring `fill=`, the code takes the
replacement branch, replaces nothing, and the output has no fill attribute
at all. -/
theorem C2_counterexample :
    containsAttrB fillName fillTextMarkup = false ∧
    containsSub svgTag fillTextMarkup = true ∧
    containsAttrB fillName
        (transformSvg (("#ff0000").data) 64 fillTextMarkup) = false := by
  refine ⟨by decide, by decide, by decide⟩

/-- C2 (amended): the branch is keyed on the substring `fill=`, not on the
presence of a complete attribute.  When the substring occurs, every complete
`fill="…"` attribute occurrence is replaced by the requested color — in
particular markup with the substring but no complete attribute is left
unchanged; when the substring is absent, ` fill="color"` is injected at the
first occurrence of `<svg` only, the rest of the string unchanged. -/
theorem C2_fill_amended (m c : List Char) (hc : '"' ∉ c) :
    (containsSub fillEq m = true →
      fillStage c m = replaceAttrAll fillName (attrText fillName c) m ∧
      attrValues fillName (fillStage c m) =
        List.replicate (attrValues fillName m).length c) ∧
    (containsSub fillEq m = true → containsAttrB fillName m = false →
      fillStage c m = m) ∧
    (containsSub fillEq m = false → containsSub svgTag m = true →
      ∃ a b, m = a ++ svgTag ++ b ∧
        fillStage c m = a ++ (svgTag ++ ' ' :: attrText fillName c) ++ b ∧
        (∀ a2 b2 : List Char, m = a2 ++ svgTag ++ b2 → a.length ≤ a2.length)) ∧
    (containsSub fillEq m = false → containsSub svgTag m = false →
      fillStage c m = m) := by
  have hn : ('"' : Char) ∉ fillName := by decide
  refine ⟨?_, ?_, ?_, ?_⟩
  · intro h1
    rw [fillStage, if_pos h1]
    exact ⟨rfl, attrValues_replaceAttrAll hn hc⟩
  · intro h1 h2
    rw [fillStage, if_pos h1]
    exact replaceAttrAll_no_match h2
  · intro h1 h2
    rw [fillStage, if_neg (by simp [h1])]
    exact replaceSubFirst_decomp (by decide) h2
  · intro h1 h2
    rw [fillStage, if_neg (by simp [h1])]
    exact replaceSubFirst_no_occur h2

/-- Markup with two fill attributes, one of them not on the root tag. -/
def twoFillMarkup : List Char :=
  "<svg fill=\"red\"><path fill=\"blue\"/></svg>".data

/-- Markup with no `fill=` substring. -/
def noFillMarkup : List Char := "<svg viewBox=\"0 0 4 4\"><path/></svg>".data

/-- C2 witness: both fill occurrences of `twoFillMarkup` become the requested
color, and on `noFillMarkup` the fill is injected at the root tag. -/
theorem C2_fill_amended_witness :
    attrValues fillName (fillStage (("#1a2b3c").data) twoFillMarkup) =
      List.replicate (attrValues fillName twoFillMarkup).length
        (("#1a2b3c").data) ∧
    (∃ a b, noFillMarkup = a ++ svgTag ++ b ∧
      fillStage (("#1a2b3c").data) noFillMarkup =
        a ++ (svgTag ++ ' ' :: attrText fillName (("#1a2b3c").data)) ++ b ∧
      (∀ a2 b2 : List Char, noFillMarkup = a2 ++ svgTag ++ b2 →
        a.length ≤ a2.length)) :=
  ⟨((C2_fill_amended twoFillMarkup (("#1a2b3c").data) (by decide)).1
      (by decide)).2,
   (C2_fill_amended noFillMarkup (("#1a2b3c").data) (by decide)).2.2.1
      (by decide) (by decide)⟩

/-! ## C9 — markup without a root tag -/

/-- Markup whose outermost element is not `<svg`. -/
def noRootMarkup : List Char := "<path fill=\"red\"/>".data

/-- C9 counterexample: there is no `MarkupError` anywhere in the program and
markup lacking `<svg` is not left unchanged — its fill attribute is still
replaced. -/
theorem C9_counterexample :
    containsSub svgTag noRootMarkup = false ∧
    transformSvg (("#00ff00").data) 64 noRootMarkup ≠ noRootMarkup ∧
    transformSvg (("#00ff00").data) 64 noRootMarkup =
      ("<path fill=\"#00ff00\"/>").data := by
  refine ⟨by decide, by decide, by decide⟩

/-- C9 (amended): the transform has no error path; on markup lacking `<svg`
the replacement steps still apply and only the injection steps turn into
no-ops.  In particular the markup passes through unchanged whenever, in
addition, it contains no `fill=` substring and no width or height attribute
(a sufficient condition: a replacement step may also happen to reproduce its
input, e.g. when `fill=` occurs without a complete double-quoted attribute). -/
theorem C9_no_root_amended (m c : List Char) (n : Nat)
    (h1 : containsSub svgTag m = false)
    (h2 : containsSub fillEq m = false)
    (h3 : containsAttrB widthName m = false)
    (h4 : containsAttrB heightName m = false) :
    transformSvg c n m = m := by
  have hfill : fillStage c m = m := by
    rw [fillStage, if_neg (by simp [h2])]
    exact replaceSubFirst_no_occur h1
  rw [transformSvg, hfill, dimStage]
  simp only [h3, h4, Bool.false_eq_true, if_false, Bool.not_false, Bool.and_self,
    if_true]
  exact replaceSubFirst_no_occur h1

/-- Markup lacking `<svg`, `fill=`, and both dimension attributes. -/
def circleMarkup : List Char := "<circle r=\"4\"/>".data

/-- C9 witness: such markup passes through the transform unchanged. -/
theorem C9_no_root_amended_witness :
    transformSvg (("#123456").data) 32 circleMarkup = circleMarkup :=
  C9_no_root_amended circleMarkup (("#123456").data) 32
    (by decide) (by decide) (by decide) (by decide)

/-! ## C3 — the dimension branch -/

theorem dimStage_width_only {n : Nat} {s : List Char}
    (hW : containsAttrB widthName s = true)
    (hH : containsAttrB heightName s = false) :
    dimStage n s =
      replaceAttrFirst widthName (attrText widthName (sizeChars n)) s := by
  simp [dimStage, hW, hH]

theorem dimStage_height_only {n : Nat} {s : List Char}
    (hW : containsAttrB widthName s = false)
    (hH : containsAttrB heightName s = true) :
    dimStage n s =
      replaceAttrFirst heightName (attrText heightName (sizeChars n)) s := by
  simp [dimStage, hW, hH]

theorem dimStage_neither {n : Nat} {s : List Char}
    (hW : containsAttrB widthName s = false)
    (hH : containsAttrB heightName s = false) :
    dimStage n s =
      replaceSubFirst svgTag
        (svgTag ++ ' ' :: attrText widthName (sizeChars n) ++
          ' ' :: attrText heightName (sizeChars n)) s := by
  simp [dimStage, hW, hH]

/-- Markup in which the only `width="…"` match sits inside the value of a
fill attribute: `<svg fill="xwidth="10">`. -/
def trickyWidthMarkup : List Char := "<svg fill=\"xwidth=\"10\">".data

/-- C3 counterexample: `trickyWidthMarkup` contains a `width="…"` match and
no `height="…"` match, yet the transform's output carries an injected
`height` attribute — because the fill replacement runs first and destroys
the width match, the presence flags (computed after the fill step) are both
false and the code injects both dimensions. -/
theorem C3_counterexample :
    containsAttrB widthName trickyWidthMarkup = true ∧
    containsAttrB heightName trickyWidthMarkup = false ∧
    containsAttrB heightName
      (transformSvg (("#0f0").data) 50 trickyWidthMarkup) = true := by
  refine ⟨by decide, by decide, by decide⟩

/-- C3 (amended): the presence of `width`/`height` is decided on the string
produced by the fill step.  If at that point exactly one of the two has a
match, only the first such match is replaced by the requested size and the
rest of the string is left unchanged (nothing is injected for the absent
dimension); if neither has a match, both are injected together at the first
`<svg` occurrence. -/
theorem C3_dims_amended (m c : List Char) (n : Nat) :
    (containsAttrB widthName (fillStage c m) = true →
     containsAttrB heightName (fillStage c m) = false →
      ∃ a v b, '"' ∉ v ∧ fillStage c m = a ++ attrText widthName v ++ b ∧
        transformSvg c n m = a ++ attrText widthName (sizeChars n) ++ b ∧
        (∀ a2 v2 b2 : List Char, '"' ∉ v2 →
          fillStage c m = a2 ++ attrText widthName v2 ++ b2 →
          a.length ≤ a2.length)) ∧
    (containsAttrB widthName (fillStage c m) = false →
     containsAttrB heightName (fillStage c m) = true →
      ∃ a v b, '"' ∉ v ∧ fillStage c m = a ++ attrText heightName v ++ b ∧
        transformSvg c n m = a ++ attrText heightName (sizeChars n) ++ b ∧
        (∀ a2 v2 b2 : List Char, '"' ∉ v2 →
          fillStage c m = a2 ++ attrText heightName v2 ++ b2 →
          a.length ≤ a2.length)) ∧
    (containsAttrB widthName (fillStage c m) = false →
     containsAttrB heightName (fillStage c m) = false →
     containsSub svgTag (fillStage c m) = true →
      ∃ a b, fillStage c m = a ++ svgTag ++ b ∧
        transformSvg c n m =
          a ++ (svgTag ++ ' ' :: attrText widthName (sizeChars n) ++
            ' ' :: attrText heightName (sizeChars n)) ++ b ∧
        (∀ a2 b2 : List Char, fillStage c m = a2 ++ svgTag ++ b2 →
          a.length ≤ a2.length)) := by
  refine ⟨?_, ?_, ?_⟩
  · intro hW hH
    rw [transformSvg, dimStage_width_only hW hH]
    exact replaceAttrFirst_decomp hW
  · intro hW hH
    rw [transformSvg, dimStage_height_only hW hH]
    exact replaceAttrFirst_decomp hH
  · intro hW hH hsvg
    rw [transformSvg, dimStage_neither hW hH]
    exact replaceSubFirst_decomp (by decide) hsvg

/-- The asymmetric-dimension markup of the claim: a `width` attribute only. -/
def widthOnlyMarkup : List Char := "<svg width=\"10\"><path d=\"M0 0\"/></svg>".data

/-- C3 witness: on `widthOnlyMarkup` with size 50 the width becomes `50`, no
height attribute appears, and the first-match decomposition produced by the
amended theorem is inhabited. -/
theorem C3_dims_amended_witness :
    (∃ a v b, '"' ∉ v ∧
      fillStage (("#fff").data) widthOnlyMarkup =
        a ++ attrText widthName v ++ b ∧
      transformSvg (("#fff").data) 50 widthOnlyMarkup =
        a ++ attrText widthName (sizeChars 50) ++ b ∧
      (∀ a2 v2 b2 : List Char, '"' ∉ v2 →
        fillStage (("#fff").data) widthOnlyMarkup =
          a2 ++ attrText widthName v2 ++ b2 →
        a.length ≤ a2.length)) ∧
    transformSvg (("#fff").data) 50 widthOnlyMarkup =
      ("<svg fill=\"#fff\" width=\"50\"><path d=\"M0 0\"/></svg>").data ∧
    containsAttrB heightName
      (transformSvg (("#fff").data) 50 widthOnlyMarkup) = false :=
  ⟨(C3_dims_amended widthOnlyMarkup (("#fff").data) 50).1 (by decide) (by decide),
   by decide, by decide⟩

/-! ## C8 — idempotence -/

theorem isSub_append_single {p xs : List Char} {ch : Char}
    (h : IsSub p (xs ++ [ch])) : IsSub p xs ∨ ∃ t, p = t ++ [ch] := by
  obtain ⟨a, b, hab⟩ := h
  cases hb : b.reverse with
  | nil =>
    have hbnil : b = [] := by
      have := congrArg List.reverse hb
      simpa using this
    subst hbnil
    cases hp : p.reverse with
    | nil =>
      have hpnil : p = [] := by
        have := congrArg List.reverse hp
        simpa using this
      subst hpnil
      exact Or.inl ⟨xs, [], by simp⟩
    | cons q qs =>
      right
      have hpe : p = qs.reverse ++ [q] := by
        have := congrArg List.reverse hp
        simpa using this
      have hxs : xs ++ [ch] = (a ++ qs.reverse) ++ [q] := by
        rw [hab, hpe]
        simp
      have hch : ch = q := by
        have h1 := congrArg List.getLast? hxs
        rw [List.getLast?_concat, List.getLast?_concat] at h1
        exact Option.some.inj h1
      exact ⟨qs.reverse, by rw [hpe, hch]⟩
  | cons q qs =>
    left
    have hbe : b = qs.reverse ++ [q] := by
      have := congrArg List.reverse hb
      simpa using this
    have hxq : xs ++ [ch] = (a ++ p ++ qs.reverse) ++ [q] := by
      rw [hab, hbe]
      simp
    have hxs : xs = a ++ p ++ qs.reverse := by
      have h2 := congrArg List.dropLast hxq
      simpa [List.dropLast_concat] using h2
    exact ⟨a, qs.reverse, hxs⟩

/-- A markup string on which the transform is not idempotent: its only
`fill=` substring lives inside the width value and is destroyed by the
width replacement, flipping the fill branch of the second application. -/
def widthFillMarkup : List Char := "<svg width=\"fill=\">".data

/-- C8 counterexample: applying the transform twice with the same color and
size does not equal applying it once: the first pass yields
`<svg width="64">`, the second injects a fill attribute into it. -/
theorem C8_counterexample :
    transformSvg (("#000000").data) 64 widthFillMarkup =
      ("<svg width=\"64\">").data ∧
    transformSvg (("#000000").data) 64
        (transformSvg (("#000000").data) 64 widthFillMarkup) ≠
      transformSvg (("#000000").data) 64 widthFillMarkup := by
  refine ⟨by decide, by decide⟩

/-- C8 (amended): the fill handling alone is idempotent: for every markup
string and every quote-free color, running the fill step on its own output
changes nothing — repeated fill replacement converges and never duplicates
the fill attribute.  (Full-transform idempotence fails, see the
counterexample: a width/height replacement can destroy the substring that
selects the fill branch.) -/
theorem C8_fill_idem_amended (m c : List Char) (hc : '"' ∉ c) :
    fillStage c (fillStage c m) = fillStage c m := by
  have hn : ('"' : Char) ∉ fillName := by decide
  have hfe : fillEq = fillName ++ ['='] := by decide
  by_cases h1 : containsSub fillEq m = true
  · have hs1 : fillStage c m = replaceAttrAll fillName (attrText fillName c) m := by
      rw [fillStage, if_pos h1]
    by_cases h2 : containsAttrB fillName m = true
    · -- at least one complete attribute: the output contains `fill="c"`,
      -- so the second pass takes the same branch and is the identity by
      -- idempotence of the global replacement.
      have hsub : IsSub (attrText fillName c) (fillStage c m) := by
        rw [hs1]
        exact isSub_attrText_replaceAttrAll h2
      have hfe2 : containsSub fillEq (fillStage c m) = true := by
        rw [containsSub_iff]
        refine isSub_trans (headPart_isSub ?_) hsub
        refine ⟨'"' :: (c ++ ['"']), ?_⟩
        rw [hfe]
        simp [attrText]
      rw [fillStage, if_pos hfe2, hs1]
      exact replaceAttrAll_idem hn hc
    · -- `fill=` occurs but no complete attribute: both passes change nothing.
      have h2f : containsAttrB fillName m = false := by
        rw [← Bool.not_eq_true]
        exact h2
      have hid : fillStage c m = m := by
        rw [hs1, replaceAttrAll_no_match h2f]
      rw [hid]
      exact hid
  · have h1f : containsSub fillEq m = false := by
      rw [← Bool.not_eq_true]
      exact h1
    by_cases hsvg : containsSub svgTag m = true
    · -- injection case: the injected ` fill="c"` is, after the first pass,
      -- the single match of the scan, and replacing it reproduces itself.
      obtain ⟨a, b, hm, hres, -⟩ :=
        @replaceSubFirst_decomp svgTag (svgTag ++ ' ' :: attrText fillName c) m
          (by decide) hsvg
      have hs1 : fillStage c m =
          (a ++ svgTag ++ [' ']) ++ attrText fillName c ++ b := by
        rw [fillStage, if_neg (by simp [h1f]), hres]
        simp
      have hfe2 : containsSub fillEq (fillStage c m) = true := by
        rw [containsSub_iff, hs1]
        apply isSub_of_append_left
        apply isSub_of_append_right
        apply headPart_isSub
        refine ⟨'"' :: (c ++ ['"']), ?_⟩
        rw [hfe]
        simp [attrText]
      have hafe : containsSub fillEq (a ++ svgTag) = false := by
        rw [← Bool.not_eq_true, containsSub_iff]
        intro hin
        exact containsSub_false_of_isSub h1f (hm ▸ isSub_of_append_left hin)
      have hb : containsSub fillEq b = false := by
        rw [← Bool.not_eq_true, containsSub_iff]
        intro hin
        exact containsSub_false_of_isSub h1f (hm ▸ isSub_of_append_right hin)
      have hpad_a : containsSub fillEq (a ++ svgTag ++ [' ']) = false := by
        rw [← Bool.not_eq_true, containsSub_iff]
        intro hin
        rcases isSub_append_single hin with hin2 | ⟨t, ht⟩
        · exact containsSub_false_of_isSub hafe hin2
        · have hmem : (' ' : Char) ∈ fillEq := by
            rw [ht]
            simp
          exact absurd hmem (by decide)
      rw [hfe] at hpad_a hb
      have hid2 := replaceAttrAll_pad hc (by decide) (a ++ svgTag ++ [' ']) b
        hpad_a (Or.inr (List.getLast?_concat _)) hb
      rw [fillStage, if_pos hfe2, hs1, hid2]
    · -- no `<svg` at all: both passes change nothing.
      have hsvgf : containsSub svgTag m = false := by
        rw [← Bool.not_eq_true]
        exact hsvg
      have hid : fillStage c m = m := by
        rw [fillStage, if_neg (by simp [h1f])]
        exact replaceSubFirst_no_occur hsvgf
      rw [hid]
      exact hid

/-- A markup string whose fill attributes sit on two different tags. -/
def idemMarkup : List Char := "<svg fill=\"a\"><g fill=\"b\"/></svg>".data

/-- C8 witness: the fill step is idempotent on a concrete markup with two
fill attributes. -/
theorem C8_fill_idem_amended_witness :
    fillStage (("#abcdef").data) (fillStage (("#abcdef").data) idemMarkup) =
      fillStage (("#abcdef").data) idemMarkup :=
  C8_fill_idem_amended idemMarkup (("#abcdef").data) (by decide)
